import Mathlib

/-!
Formal model of the segment timing and media-assembly pipeline in
`src/video/subarticle_video_generator.py` (Politid-gnet repository).

Durations are modelled as rationals. Each definition below is a direct
translation of the corresponding Python function or code block; the line
numbers in the doc comments refer to `subarticle_video_generator.py`.
-/

/-- A word token produced by the transcription step (`transcribe_with_whisper`,
lines 399-425): a text with local start and end timestamps. The source field
named `end` is called `stop` here because `end` is a Lean keyword. -/
structure Word where
  text : String
  start : ℚ
  stop : ℚ
deriving DecidableEq, Repr

/-- A subtitle cue produced by `group_words_for_subtitles` (lines 428-459):
joined text with the start of the first and the end of the last grouped word.
The source field named `end` is called `stop` here. -/
structure Subtitle where
  text : String
  start : ℚ
  stop : ℚ
deriving DecidableEq, Repr

/- ------------------------------------------------------------------
Duration reconciler: `slow_and_loop_video`, lines 327-396.
------------------------------------------------------------------ -/

/-- Line 351: `slow_factor = max(0.4, min(0.8, original_duration / target_duration))`. -/
def slow_factor (original_duration target_duration : ℚ) : ℚ :=
  max (2/5) (min (4/5) (original_duration / target_duration))

/-- Lines 354-355: `slowed = clip.with_speed_scaled(slow_factor)`; playing a
clip at speed `f` scales its duration by `1 / f`. -/
def slowed_duration (original_duration target_duration : ℚ) : ℚ :=
  original_duration / slow_factor original_duration target_duration

/-- Line 362: `loops_needed = math.ceil(target_duration / slowed_duration)`. -/
def loops_needed (original_duration target_duration : ℚ) : ℤ :=
  ⌈target_duration / slowed_duration original_duration target_duration⌉

/-- Lines 360-366: if the slowed clip is still shorter than the target it is
concatenated `loops_needed` times, otherwise it is used as is. -/
def looped_duration (original_duration target_duration : ℚ) : ℚ :=
  if slowed_duration original_duration target_duration < target_duration then
    (loops_needed original_duration target_duration : ℚ) *
      slowed_duration original_duration target_duration
  else
    slowed_duration original_duration target_duration

/-- Line 369: `final = looped.subclipped(0, target_duration)`. Trimming the
looped clip to `[0, target_duration]` is only meaningful when the clip extends
at least to `target_duration`; the result is the duration of the trimmed clip. -/
def trimmed_duration (original_duration target_duration : ℚ) : Option ℚ :=
  if target_duration ≤ looped_duration original_duration target_duration then
    some target_duration
  else
    none

/-- The slow factor is bounded below by 2/5, hence positive. -/
lemma slow_factor_pos (o t : ℚ) : 0 < slow_factor o t := by
  have h : (2/5 : ℚ) ≤ slow_factor o t := le_max_left _ _
  linarith

/-- For a positive original duration the slowed duration is positive. -/
lemma slowed_duration_pos (o t : ℚ) (ho : 0 < o) : 0 < slowed_duration o t := by
  exact div_pos ho (slow_factor_pos o t)

/-- Core fact shared by several claims: after slowing and (when needed)
looping, the clip extends at least to the target duration. -/
lemma looped_duration_ge_target (o t : ℚ) (ho : 0 < o) :
    t ≤ looped_duration o t := by
  unfold looped_duration
  set s := slowed_duration o t with hs
  have hspos : 0 < s := slowed_duration_pos o t ho
  by_cases h : s < t
  · simp only [h, if_pos]
    have hceil : (t / s : ℚ) ≤ ((⌈t / s⌉ : ℤ) : ℚ) := Int.le_ceil _
    have := mul_le_mul_of_nonneg_right hceil (le_of_lt hspos)
    rw [div_mul_cancel₀ t (ne_of_gt hspos)] at this
    unfold loops_needed
    rw [← hs]
    exact this
  · simp only [h, if_neg, not_false_iff]
    linarith [not_lt.mp h]

/-- Claim C1: for every pair of positive durations, the plan computed by
`slow_and_loop_video` (speed factor clamped to [0.4, 0.8], looping when the
stretched clip is still short, then trimming to the target) yields, when
simulated, a final duration exactly equal to the target duration (hence
within any tolerance). -/
theorem slow_and_loop_simulated_duration_eq_target
    (o t : ℚ) (ho : 0 < o) (ht : 0 < t) :
    trimmed_duration o t = some t := by
  unfold trimmed_duration
  rw [if_pos (looped_duration_ge_target o t ho)]

/-- Witness for C1 at the spec scenario raw = 5, target = 12. -/
theorem slow_and_loop_simulated_duration_eq_target_witness :
    (0 : ℚ) < 5 ∧ (0 : ℚ) < 12 ∧ trimmed_duration 5 12 = some 12 :=
  ⟨by norm_num, by norm_num,
    slow_and_loop_simulated_duration_eq_target 5 12 (by norm_num) (by norm_num)⟩

/-- Claim C9: the clip obtained after slowing and looping has duration at
least the target, so the final trim to `[0, target]` never exceeds the clip
extent. -/
theorem slow_and_loop_trim_within_extent
    (o t : ℚ) (ho : 0 < o) (ht : 0 < t) :
    t ≤ looped_duration o t :=
  looped_duration_ge_target o t ho

/-- Witness for C9 at the spec scenario raw = 5, target = 30. -/
theorem slow_and_loop_trim_within_extent_witness :
    (0 : ℚ) < 5 ∧ (0 : ℚ) < 30 ∧ (30 : ℚ) ≤ looped_duration 5 30 :=
  ⟨by norm_num, by norm_num,
    slow_and_loop_trim_within_extent 5 30 (by norm_num) (by norm_num)⟩

/-- Counterexample to claim C5 as stated: for raw = 10 > target = 5 > 0 the
speed factor computed on line 351 is 4/5 (the configured MAXIMUM bound), not
the configured minimum bound 2/5 claimed by the spec. -/
theorem slow_factor_raw_exceeds_target_cex :
    (5 : ℚ) < 10 ∧ (0 : ℚ) < 5 ∧
      slow_factor 10 5 = 4/5 ∧ ¬ slow_factor 10 5 = 2/5 := by
  refine ⟨by norm_num, by norm_num, ?_, ?_⟩
  · unfold slow_factor; norm_num
  · unfold slow_factor; norm_num

/-- Claim C5 (amended): for raw_duration > target_duration > 0 the speed
factor clamps to the configured MAXIMUM bound 0.8 (not the minimum 0.4), no
looping occurs, and the asset is simply trimmed to the target duration. -/
theorem slow_factor_raw_exceeds_target_clamps_max
    (o t : ℚ) (ht : 0 < t) (hot : t < o) :
    slow_factor o t = 4/5 ∧
      ¬ slowed_duration o t < t ∧
      looped_duration o t = slowed_duration o t ∧
      trimmed_duration o t = some t := by
  have hratio : (1 : ℚ) < o / t := (one_lt_div ht).mpr hot
  have hsf : slow_factor o t = 4/5 := by
    unfold slow_factor
    rw [min_eq_left (by linarith), max_eq_right (by norm_num)]
  have hslow : slowed_duration o t = o * (5/4) := by
    unfold slowed_duration
    rw [hsf]
    ring
  have hge : ¬ slowed_duration o t < t := by
    rw [hslow]; push_neg; nlinarith
  refine ⟨hsf, hge, ?_, ?_⟩
  · unfold looped_duration
    rw [if_neg hge]
  · unfold trimmed_duration
    rw [if_pos]
    unfold looped_duration
    rw [if_neg hge]
    nlinarith [not_lt.mp hge]

/-- Witness for the amended C5 at raw = 10, target = 5. -/
theorem slow_factor_raw_exceeds_target_clamps_max_witness :
    (0 : ℚ) < 5 ∧ (5 : ℚ) < 10 ∧
      (slow_factor 10 5 = 4/5 ∧
        ¬ slowed_duration 10 5 < 5 ∧
        looped_duration 10 5 = slowed_duration 10 5 ∧
        trimmed_duration 10 5 = some 5) :=
  ⟨by norm_num, by norm_num,
    slow_factor_raw_exceeds_target_clamps_max 10 5 (by norm_num) (by norm_num)⟩

/- ------------------------------------------------------------------
Caption grouper: `group_words_for_subtitles`, lines 428-459.
------------------------------------------------------------------ -/

/-- Line 441: a token text ends the sentence when it ends with one of
the characters `.`, `!`, `?` (the tuple argument of `str.endswith`); since
every suffix in the tuple is a single character, this is exactly a test on
the last character of the text, false for the empty text. -/
def endsSentence (t : String) : Bool :=
  match t.data.getLast? with
  | some c => c = '.' || c = '!' || c = '?'
  | none => false

/-- Lines 443-448 and 452-457: a flushed group becomes one subtitle cue whose
text joins the token texts with spaces, whose start is the start of the first
token and whose stop is the stop of the last token of the group. -/
def mkSubtitle (g : List Word) : Subtitle :=
  { text := String.intercalate " " (g.map Word.text)
  , start := (g.headD ⟨"", 0, 0⟩).start
  , stop := (g.getLastD ⟨"", 0, 0⟩).stop }

/-- Lines 438-449, loop body: append the word to the pending group; flush the
group as a cue when it has reached `maxWords` words or the word text ends a
sentence. -/
def groupStep (maxWords : Nat) (st : List Word × List Subtitle) (w : Word) :
    List Word × List Subtitle :=
  if maxWords ≤ (st.1 ++ [w]).length || endsSentence w.text then
    ([], st.2 ++ [mkSubtitle (st.1 ++ [w])])
  else
    (st.1 ++ [w], st.2)

/-- Lines 451-457: after the loop, a non-empty pending group is flushed as a
final cue. -/
def flushTail (out : List Subtitle) (acc : List Word) : List Subtitle :=
  if acc.isEmpty then out else out ++ [mkSubtitle acc]

/-- Lines 428-459: `group_words_for_subtitles(words, max_words)` as a left
fold of the loop body followed by the final flush. -/
def group_words_for_subtitles (words : List Word) (maxWords : Nat) : List Subtitle :=
  flushTail (words.foldl (groupStep maxWords) ([], [])).2
    (words.foldl (groupStep maxWords) ([], [])).1

/-- Specification-style regrouping: starting from a pending group `acc`, scan
forward and return the first complete group (the prefix up to and including
the first token at which the group reaches `maxWords` words or the token text
ends a sentence) together with the remaining tokens, or `none` when the input
ends before any boundary is reached. -/
def specTakeGroup (maxWords : Nat) : List Word → List Word → Option (List Word × List Word)
  | _, [] => none
  | acc, w :: ws =>
    if maxWords ≤ (acc ++ [w]).length || endsSentence w.text then
      some (acc ++ [w], ws)
    else
      specTakeGroup maxWords (acc ++ [w]) ws

lemma specTakeGroup_rest_length (m : Nat) :
    ∀ (ws acc g rest : List Word), specTakeGroup m acc ws = some (g, rest) →
      rest.length < ws.length := by
  intro ws
  induction ws with
  | nil => intro acc g rest h; simp [specTakeGroup] at h
  | cons w ws ih =>
    intro acc g rest h
    rw [specTakeGroup] at h
    split at h
    · cases h; simp
    · exact Nat.lt_trans (ih _ _ _ h) (by simp)

lemma specTakeGroup_append (m : Nat) :
    ∀ (ws acc g rest : List Word), specTakeGroup m acc ws = some (g, rest) →
      g ++ rest = acc ++ ws := by
  intro ws
  induction ws with
  | nil => intro acc g rest h; simp [specTakeGroup] at h
  | cons w ws ih =>
    intro acc g rest h
    rw [specTakeGroup] at h
    split at h
    · cases h; simp
    · rw [ih _ _ _ h]; simp

lemma specTakeGroup_ne_nil (m : Nat) :
    ∀ (ws acc g rest : List Word), specTakeGroup m acc ws = some (g, rest) →
      g ≠ [] := by
  intro ws
  induction ws with
  | nil => intro acc g rest h; simp [specTakeGroup] at h
  | cons w ws ih =>
    intro acc g rest h
    rw [specTakeGroup] at h
    split at h
    · cases h; simp
    · exact ih _ _ _ h

/-- The grouping described by the specification sentence of claim C6:
repeatedly split off the first complete group and emit it as a cue; emit any
non-empty remaining group after the last token. -/
def groupWordsSpec (m : Nat) (ws : List Word) : List Subtitle :=
  match h : specTakeGroup m [] ws with
  | some (g, rest) => mkSubtitle g :: groupWordsSpec m rest
  | none => flushTail [] ws
termination_by ws.length
decreasing_by
  exact specTakeGroup_rest_length m ws [] g rest h

lemma groupWordsSpec_unfold (m : Nat) (ws : List Word) :
    groupWordsSpec m ws =
      match specTakeGroup m [] ws with
      | some (g, rest) => mkSubtitle g :: groupWordsSpec m rest
      | none => flushTail [] ws := by
  rw [groupWordsSpec]
  split
  · next g rest h => rw [h]
  · next h => rw [h]

lemma flushTail_eq_append (out : List Subtitle) (acc : List Word) :
    flushTail out acc = out ++ flushTail [] acc := by
  unfold flushTail
  by_cases h : acc.isEmpty <;> simp [h]

lemma groupStep_flush {m : Nat} {acc : List Word} {out : List Subtitle} {w : Word}
    (hc : (m ≤ (acc ++ [w]).length || endsSentence w.text) = true) :
    groupStep m (acc, out) w = ([], out ++ [mkSubtitle (acc ++ [w])]) := by
  unfold groupStep
  rw [if_pos hc]

lemma groupStep_keep {m : Nat} {acc : List Word} {out : List Subtitle} {w : Word}
    (hc : ¬ (m ≤ (acc ++ [w]).length || endsSentence w.text) = true) :
    groupStep m (acc, out) w = (acc ++ [w], out) := by
  unfold groupStep
  rw [if_neg hc]

/-- Bridging lemma between the left-fold implementation and the
specification-style regrouping, generalised over the pending group and the
already emitted cues. -/
lemma foldl_groupStep_spec (m : Nat) :
    ∀ (ws acc : List Word) (out : List Subtitle),
      flushTail (ws.foldl (groupStep m) (acc, out)).2
          (ws.foldl (groupStep m) (acc, out)).1 =
      out ++ (match specTakeGroup m acc ws with
              | some (g, rest) => mkSubtitle g :: groupWordsSpec m rest
              | none => flushTail [] (acc ++ ws)) := by
  intro ws
  induction ws with
  | nil =>
    intro acc out
    simp only [List.foldl_nil, specTakeGroup, List.append_nil]
    exact flushTail_eq_append out acc
  | cons w ws ih =>
    intro acc out
    rw [List.foldl_cons, specTakeGroup]
    by_cases hc : (m ≤ (acc ++ [w]).length || endsSentence w.text) = true
    · rw [groupStep_flush hc, if_pos hc]
      show flushTail (List.foldl (groupStep m) ([], out ++ [mkSubtitle (acc ++ [w])]) ws).2
            (List.foldl (groupStep m) ([], out ++ [mkSubtitle (acc ++ [w])]) ws).1 =
          out ++ (mkSubtitle (acc ++ [w]) :: groupWordsSpec m ws)
      rw [ih [] (out ++ [mkSubtitle (acc ++ [w])]), groupWordsSpec_unfold m ws]
      cases h : specTakeGroup m [] ws with
      | none => simp
      | some p =>
        cases p with
        | mk g rest => simp
    · rw [groupStep_keep hc, if_neg hc, ih (acc ++ [w]) out]
      have h2 : acc ++ [w] ++ ws = acc ++ (w :: ws) := by simp
      rw [h2]

/-- Helper form of claim C6, shared with the proofs about ordered inputs. -/
lemma group_words_eq_groupWordsSpec (words : List Word) (m : Nat) :
    group_words_for_subtitles words m = groupWordsSpec m words := by
  unfold group_words_for_subtitles
  rw [foldl_groupStep_spec m words [] [], groupWordsSpec_unfold m words]
  cases hs : specTakeGroup m [] words with
  | none => simp
  | some p =>
    cases p with
    | mk g rest => simp

/-- Claim C6: the grouper accumulates tokens into a pending group and emits a
cue — joined text, start of the first token, stop of the last token — exactly
when the group reaches the word threshold or the current token text ends in
sentence-terminal punctuation, and emits any non-empty remaining group after
the last token: the left-fold implementation equals the boundary-splitting
description. -/
theorem group_words_emits_exactly_at_boundaries (words : List Word) (m : Nat) :
    group_words_for_subtitles words m = groupWordsSpec m words :=
  group_words_eq_groupWordsSpec words m

/-- Counterexample to claim C3 as stated: a malformed token with stop equal to
start is neither rejected nor clamped; the grouper emits a cue with
stop equal to start, violating the start less than stop invariant. -/
theorem group_words_malformed_token_cex :
    group_words_for_subtitles [⟨"a.", 1, 1⟩] 4 =
      [{ text := "a.", start := 1, stop := 1 }] ∧ ¬ ((1 : ℚ) < 1) := by
  have hpunct : endsSentence "a." = true := by decide
  have htext : String.intercalate " " ["a."] = "a." := by decide
  refine ⟨?_, by norm_num⟩
  simp [group_words_for_subtitles, groupStep, flushTail, mkSubtitle, hpunct, htext]

lemma mkSubtitle_start_eq (g : List Word) :
    (mkSubtitle g).start = (g.headD ⟨"", 0, 0⟩).start := rfl

lemma headD_mem_of_ne_nil (g : List Word) (hne : g ≠ []) :
    g.headD ⟨"", 0, 0⟩ ∈ g := by
  cases g with
  | nil => exact absurd rfl hne
  | cons a gs => simp

/-- A cue flushed from a non-empty group of tokens ordered by start, each
well formed, satisfies the start less than stop invariant. -/
lemma mkSubtitle_start_lt_stop (g : List Word) (hne : g ≠ [])
    (hp : List.Pairwise (fun a b : Word => a.start ≤ b.start) g)
    (hwf : ∀ w ∈ g, w.start < w.stop) :
    (mkSubtitle g).start < (mkSubtitle g).stop := by
  cases g with
  | nil => exact absurd rfl hne
  | cons a gs =>
    have hmem : (a :: gs).getLastD ⟨"", 0, 0⟩ ∈ a :: gs := by
      rw [List.getLastD_cons]
      exact List.getLastD_mem_cons gs a
    have hwflast : ((a :: gs).getLastD ⟨"", 0, 0⟩).start <
        ((a :: gs).getLastD ⟨"", 0, 0⟩).stop := hwf _ hmem
    have hale : a.start ≤ ((a :: gs).getLastD ⟨"", 0, 0⟩).start := by
      rcases List.mem_cons.mp hmem with h | h
      · rw [h]
      · exact (List.pairwise_cons.mp hp).1 _ h
    have hstart : (mkSubtitle (a :: gs)).start = a.start := by
      simp [mkSubtitle]
    have hstop : (mkSubtitle (a :: gs)).stop =
        ((a :: gs).getLastD ⟨"", 0, 0⟩).stop := rfl
    rw [hstart, hstop]
    linarith

/-- Properties of the specification-style regrouping on token lists ordered
by start with well-formed timings: every cue satisfies start less than stop,
every cue start is the start of some input token, and cue starts are
non-decreasing. Proved by induction on a length bound. -/
lemma groupWordsSpec_props (m : Nat) :
    ∀ (n : Nat) (ws : List Word), ws.length ≤ n →
      List.Pairwise (fun a b : Word => a.start ≤ b.start) ws →
      (∀ w ∈ ws, w.start < w.stop) →
      (∀ c ∈ groupWordsSpec m ws, c.start < c.stop) ∧
      (∀ c ∈ groupWordsSpec m ws, ∃ w ∈ ws, c.start = w.start) ∧
      List.Pairwise (fun a b : Subtitle => a.start ≤ b.start) (groupWordsSpec m ws) := by
  intro n
  induction n with
  | zero =>
    intro ws hlen hp hwf
    have hnil : ws = [] := List.length_eq_zero.mp (Nat.le_zero.mp hlen)
    subst hnil
    rw [groupWordsSpec_unfold]
    simp [specTakeGroup, flushTail]
  | succ n ih =>
    intro ws hlen hp hwf
    rw [groupWordsSpec_unfold]
    cases h : specTakeGroup m [] ws with
    | none =>
      by_cases hws : ws = []
      · subst hws; simp [flushTail]
      · have hfe : flushTail [] ws = [mkSubtitle ws] := by
          simp [flushTail, hws]
        rw [hfe]
        refine ⟨?_, ?_, ?_⟩
        · intro c hc
          rw [List.mem_singleton] at hc
          subst hc
          exact mkSubtitle_start_lt_stop ws hws hp hwf
        · intro c hc
          rw [List.mem_singleton] at hc
          subst hc
          exact ⟨ws.headD ⟨"", 0, 0⟩, headD_mem_of_ne_nil ws hws, rfl⟩
        · simp
    | some p =>
      cases p with
      | mk g rest =>
        have happ : g ++ rest = ws := by
          simpa using specTakeGroup_append m ws [] g rest h
        have hgne : g ≠ [] := specTakeGroup_ne_nil m ws [] g rest h
        have hrlt : rest.length < ws.length := specTakeGroup_rest_length m ws [] g rest h
        rw [← happ] at hp hwf
        obtain ⟨hpg, hpr, hcross⟩ := List.pairwise_append.mp hp
        have hwfg : ∀ w ∈ g, w.start < w.stop :=
          fun w hw => hwf w (List.mem_append_left _ hw)
        have hwfr : ∀ w ∈ rest, w.start < w.stop :=
          fun w hw => hwf w (List.mem_append_right _ hw)
        have hrlen : rest.length ≤ n := by omega
        obtain ⟨ih1, ih2, ih3⟩ := ih rest hrlen hpr hwfr
        refine ⟨?_, ?_, ?_⟩
        · intro c hc
          rcases List.mem_cons.mp hc with rfl | hc
          · exact mkSubtitle_start_lt_stop g hgne hpg hwfg
          · exact ih1 c hc
        · intro c hc
          rcases List.mem_cons.mp hc with rfl | hc
          · exact ⟨g.headD ⟨"", 0, 0⟩,
              by rw [← happ]; exact List.mem_append_left _ (headD_mem_of_ne_nil g hgne), rfl⟩
          · obtain ⟨w, hw, hcw⟩ := ih2 c hc
            exact ⟨w, by rw [← happ]; exact List.mem_append_right _ hw, hcw⟩
        · rw [List.pairwise_cons]
          refine ⟨?_, ih3⟩
          intro c hc
          obtain ⟨w, hw, hcw⟩ := ih2 c hc
          rw [mkSubtitle_start_eq, hcw]
          exact hcross _ (headD_mem_of_ne_nil g hgne) _ hw

/-- Claim C3 (amended): for token lists ordered by start whose tokens all
satisfy start less than stop, every cue emitted by the grouper satisfies
start less than stop and cues are non-decreasing in start; malformed tokens
with stop at most start are NOT rejected or clamped (see the counterexample)
and can produce a cue violating the invariant. -/
theorem group_words_sorted_wellformed_cues
    (words : List Word) (m : Nat)
    (hsort : List.Pairwise (fun a b : Word => a.start ≤ b.start) words)
    (hwf : ∀ w ∈ words, w.start < w.stop) :
    (∀ c ∈ group_words_for_subtitles words m, c.start < c.stop) ∧
      List.Pairwise (fun a b : Subtitle => a.start ≤ b.start)
        (group_words_for_subtitles words m) := by
  rw [group_words_eq_groupWordsSpec]
  obtain ⟨h1, _, h3⟩ := groupWordsSpec_props m words.length words le_rfl hsort hwf
  exact ⟨h1, h3⟩

/-- Witness for the amended C3 on a concrete two-token input. -/
theorem group_words_sorted_wellformed_cues_witness :
    (List.Pairwise (fun a b : Word => a.start ≤ b.start)
        [⟨"hej", 0, 1/2⟩, ⟨"du.", 1/2, 1⟩]) ∧
    (∀ w ∈ ([⟨"hej", 0, 1/2⟩, ⟨"du.", 1/2, 1⟩] : List Word), w.start < w.stop) ∧
    ((∀ c ∈ group_words_for_subtitles [⟨"hej", 0, 1/2⟩, ⟨"du.", 1/2, 1⟩] 4,
        c.start < c.stop) ∧
      List.Pairwise (fun a b : Subtitle => a.start ≤ b.start)
        (group_words_for_subtitles [⟨"hej", 0, 1/2⟩, ⟨"du.", 1/2, 1⟩] 4)) := by
  refine ⟨?_, ?_, ?_⟩
  · simp only [List.pairwise_cons, List.mem_singleton, List.Pairwise.nil]
    norm_num
  · intro w hw
    rcases List.mem_cons.mp hw with rfl | hw
    · norm_num
    · rcases List.mem_cons.mp hw with rfl | hw
      · norm_num
      · simp at hw
  · apply group_words_sorted_wellformed_cues
    · simp only [List.pairwise_cons, List.mem_singleton, List.Pairwise.nil]
      norm_num
    · intro w hw
      rcases List.mem_cons.mp hw with rfl | hw
      · norm_num
      · rcases List.mem_cons.mp hw with rfl | hw
        · norm_num
        · simp at hw

/- ------------------------------------------------------------------
Timeline assembly: `assemble_subarticle_video`, lines 491-612.
------------------------------------------------------------------ -/

/-- A placement of the segment with original index `idx` at the absolute
interval from `start` to `stop` in the final timeline. -/
structure Placement where
  idx : Nat
  start : ℚ
  stop : ℚ
deriving DecidableEq, Repr

/-- Line 549: the duration of the black transition clip inserted before every
composed segment except the one with original index 0. -/
def transition_gap : ℚ := 1/10

/-- Input of the assembly loop for one segment: duration of the processed
visual clip when present (`processed_videos[i]`), presence of the audio path
(`audio_paths[i]`), and the subtitle cues of the segment (transcription then
grouping, lines 554-556) in segment-local time. -/
structure SegInput where
  vdur : Option ℚ
  hasAudio : Bool
  subs : List Subtitle
deriving DecidableEq, Repr

/-- Lines 546-551: the absolute start time of the segment with original index
`i` when the running time is `t`; a 0.1 s transition precedes every segment
with positive original index. -/
def segmentStart (gap : ℚ) (t : ℚ) (i : Nat) : ℚ :=
  if 0 < i then t + gap else t

/-- Lines 516-566, one iteration of the assembly loop over
`enumerate(zip(processed_videos, audio_paths, subarticle_texts))`: a segment
whose visual or audio is `None` is skipped entirely (lines 517-518);
otherwise the transition is accounted for (lines 546-551), the segment
subtitles are offset by the current time (lines 558-563), the clip is placed
and the current time advances by its duration (lines 565-566). The state is
(current_time, placements so far, offset subtitles so far). -/
def assemble_step (gap : ℚ) (st : ℚ × List Placement × List Subtitle)
    (p : Nat × SegInput) : ℚ × List Placement × List Subtitle :=
  match p.2.vdur, p.2.hasAudio with
  | some d, true =>
      (segmentStart gap st.1 p.1 + d,
       st.2.1 ++ [⟨p.1, segmentStart gap st.1 p.1, segmentStart gap st.1 p.1 + d⟩],
       st.2.2 ++ p.2.subs.map fun c =>
         ⟨c.text, c.start + segmentStart gap st.1 p.1, c.stop + segmentStart gap st.1 p.1⟩)
  | _, _ => st

/-- Lines 512-566: the assembly loop, started from time 0 with no placements
and no subtitles. -/
def assembleCore (gap : ℚ) (segs : List SegInput) : ℚ × List Placement × List Subtitle :=
  segs.enum.foldl (assemble_step gap) (0, [], [])

/-- Lines 576-581: a cue becomes a subtitle clip exactly when its duration
`stop - start` is strictly positive; the others are silently dropped. -/
def subtitle_clips (subs : List Subtitle) : List Subtitle :=
  subs.foldl (fun acc s => if 0 < s.stop - s.start then acc ++ [s] else acc) []

/-- Lines 509-597: `assemble_subarticle_video` returns `none` when no segment
survives the loop (lines 568-570), otherwise the placements, the rendered
subtitle clips and the total duration of the concatenated timeline. -/
def assemble_subarticle_video (segs : List SegInput) :
    Option (List Placement × List Subtitle × ℚ) :=
  if (assembleCore transition_gap segs).2.1.isEmpty then none
  else
    some ((assembleCore transition_gap segs).2.1,
      subtitle_clips (assembleCore transition_gap segs).2.2,
      (assembleCore transition_gap segs).1)

/-- A segment survives the loop exactly when both its visual and its audio
are present (line 517). -/
def validSeg (seg : SegInput) : Bool :=
  seg.vdur.isSome && seg.hasAudio

/-- Reference recursion equivalent to the assembly fold, used to reason by
structural induction: processes the segments from original index `n` at
running time `t`. -/
def composeFrom (gap : ℚ) : Nat → ℚ → List SegInput → ℚ × List Placement × List Subtitle
  | _, t, [] => (t, [], [])
  | n, t, seg :: rest =>
    match seg.vdur, seg.hasAudio with
    | some d, true =>
      let s := segmentStart gap t n
      let r := composeFrom gap (n+1) (s + d) rest
      (r.1, ⟨n, s, s + d⟩ :: r.2.1,
        (seg.subs.map fun c => ⟨c.text, c.start + s, c.stop + s⟩) ++ r.2.2)
    | _, _ => composeFrom gap (n+1) t rest

/-- The assembly fold from any state equals the reference recursion with the
already accumulated placements and subtitles as prefixes. -/
lemma foldl_assemble_step_eq_composeFrom (gap : ℚ) :
    ∀ (segs : List SegInput) (n : Nat) (t : ℚ) (ps : List Placement)
      (subs : List Subtitle),
      (List.enumFrom n segs).foldl (assemble_step gap) (t, ps, subs) =
        ((composeFrom gap n t segs).1,
         ps ++ (composeFrom gap n t segs).2.1,
         subs ++ (composeFrom gap n t segs).2.2) := by
  intro segs
  induction segs with
  | nil => intro n t ps subs; simp [composeFrom]
  | cons seg rest ih =>
    intro n t ps subs
    rw [List.enumFrom_cons, List.foldl_cons]
    cases hv : seg.vdur with
    | none =>
      have hstep : assemble_step gap (t, ps, subs) (n, seg) = (t, ps, subs) := by
        simp [assemble_step, hv]
      rw [hstep, ih (n+1) t ps subs]
      simp [composeFrom, hv]
    | some d =>
      cases ha : seg.hasAudio with
      | false =>
        have hstep : assemble_step gap (t, ps, subs) (n, seg) = (t, ps, subs) := by
          simp [assemble_step, hv, ha]
        rw [hstep, ih (n+1) t ps subs]
        simp [composeFrom, hv, ha]
      | true =>
        have hstep : assemble_step gap (t, ps, subs) (n, seg) =
            (segmentStart gap t n + d,
             ps ++ [⟨n, segmentStart gap t n, segmentStart gap t n + d⟩],
             subs ++ seg.subs.map fun c =>
               ⟨c.text, c.start + segmentStart gap t n,
                 c.stop + segmentStart gap t n⟩) := by
          simp [assemble_step, hv, ha]
        rw [hstep, ih (n+1) (segmentStart gap t n + d)]
        simp [composeFrom, hv, ha]

/-- The assembly state after the whole loop, in reference-recursion form. -/
lemma assembleCore_eq_composeFrom (gap : ℚ) (segs : List SegInput) :
    assembleCore gap segs = composeFrom gap 0 0 segs := by
  unfold assembleCore
  show (List.enumFrom 0 segs).foldl (assemble_step gap) (0, [], []) = _
  rw [foldl_assemble_step_eq_composeFrom gap segs 0 0 [] []]
  simp

lemma composeFrom_idx_ge (gap : ℚ) :
    ∀ (segs : List SegInput) (n : Nat) (t : ℚ),
      ∀ p ∈ (composeFrom gap n t segs).2.1, n ≤ p.idx := by
  intro segs
  induction segs with
  | nil => intro n t p hp; simp [composeFrom] at hp
  | cons seg rest ih =>
    intro n t p hp
    cases hv : seg.vdur with
    | none =>
      simp only [composeFrom, hv] at hp
      exact Nat.le_of_succ_le (ih (n+1) t p hp)
    | some d =>
      cases ha : seg.hasAudio with
      | false =>
        simp only [composeFrom, hv, ha] at hp
        exact Nat.le_of_succ_le (ih (n+1) t p hp)
      | true =>
        simp only [composeFrom, hv, ha, List.mem_cons] at hp
        rcases hp with rfl | hp
        · exact le_rfl
        · exact Nat.le_of_succ_le (ih (n+1) _ p hp)

lemma composeFrom_head_start (gap : ℚ) :
    ∀ (segs : List SegInput) (n : Nat) (t : ℚ), 1 ≤ n →
      ∀ p, (composeFrom gap n t segs).2.1.head? = some p → p.start = t + gap := by
  intro segs
  induction segs with
  | nil => intro n t hn p hp; simp [composeFrom] at hp
  | cons seg rest ih =>
    intro n t hn p hp
    cases hv : seg.vdur with
    | none =>
      simp only [composeFrom, hv] at hp
      exact ih (n+1) t (by omega) p hp
    | some d =>
      cases ha : seg.hasAudio with
      | false =>
        simp only [composeFrom, hv, ha] at hp
        exact ih (n+1) t (by omega) p hp
      | true =>
        simp only [composeFrom, hv, ha, List.head?_cons, Option.some.injEq] at hp
        subst hp
        simp [segmentStart, Nat.lt_of_lt_of_le Nat.zero_lt_one hn]

lemma composeFrom_chain (gap : ℚ) :
    ∀ (segs : List SegInput) (n : Nat) (t : ℚ),
      List.Chain' (fun p q : Placement => q.start = p.stop + gap)
        (composeFrom gap n t segs).2.1 := by
  intro segs
  induction segs with
  | nil => intro n t; simp [composeFrom]
  | cons seg rest ih =>
    intro n t
    cases hv : seg.vdur with
    | none => simp only [composeFrom, hv]; exact ih (n+1) t
    | some d =>
      cases ha : seg.hasAudio with
      | false => simp only [composeFrom, hv, ha]; exact ih (n+1) t
      | true =>
        simp only [composeFrom, hv, ha]
        rw [List.chain'_cons']
        refine ⟨?_, ih (n+1) _⟩
        intro q hq
        rw [Option.mem_def] at hq
        exact composeFrom_head_start gap rest (n+1) _ (by omega) q hq

lemma composeFrom_idx_map (gap : ℚ) :
    ∀ (segs : List SegInput) (n : Nat) (t : ℚ),
      (composeFrom gap n t segs).2.1.map Placement.idx =
        ((List.enumFrom n segs).filter (fun q => validSeg q.2)).map Prod.fst := by
  intro segs
  induction segs with
  | nil => intro n t; simp [composeFrom]
  | cons seg rest ih =>
    intro n t
    rw [List.enumFrom_cons]
    cases hv : seg.vdur with
    | none =>
      simp only [composeFrom, hv, List.filter_cons, validSeg, hv, Option.isSome_none,
        Bool.false_and, if_neg]
      simpa using ih (n+1) t
    | some d =>
      cases ha : seg.hasAudio with
      | false =>
        simp only [composeFrom, hv, ha]
        rw [List.filter_cons, if_neg (by simp [validSeg, hv, ha])]
        exact ih (n+1) t
      | true =>
        simp only [composeFrom, hv, ha]
        rw [List.filter_cons, if_pos (by simp [validSeg, hv, ha])]
        simp only [List.map_cons]
        rw [ih (n+1) _]

lemma composeFrom_placements_nil_iff (gap : ℚ) :
    ∀ (segs : List SegInput) (n : Nat) (t : ℚ),
      ((composeFrom gap n t segs).2.1 = [] ↔ ∀ seg ∈ segs, validSeg seg = false) := by
  intro segs
  induction segs with
  | nil => intro n t; simp [composeFrom]
  | cons seg rest ih =>
    intro n t
    cases hv : seg.vdur with
    | none =>
      simp only [composeFrom, hv]
      rw [ih (n+1) t]
      constructor
      · intro h s hs
        rcases List.mem_cons.mp hs with rfl | hs
        · simp [validSeg, hv]
        · exact h s hs
      · intro h s hs
        exact h s (List.mem_cons_of_mem _ hs)
    | some d =>
      cases ha : seg.hasAudio with
      | false =>
        simp only [composeFrom, hv, ha]
        rw [ih (n+1) t]
        constructor
        · intro h s hs
          rcases List.mem_cons.mp hs with rfl | hs
          · simp [validSeg, hv, ha]
          · exact h s hs
        · intro h s hs
          exact h s (List.mem_cons_of_mem _ hs)
      | true =>
        simp only [composeFrom, hv, ha]
        constructor
        · intro h; exact absurd h (List.cons_ne_nil _ _)
        · intro h
          have := h seg (List.mem_cons_self _ _)
          rw [validSeg, hv, ha] at this
          simp at this

/-- A list of fully valid segment inputs with the given processed durations
and no subtitles. -/
def allValid (durs : List ℚ) : List SegInput :=
  durs.map fun d => ⟨some d, true, []⟩

lemma composeFrom_allValid_length (gap : ℚ) :
    ∀ (durs : List ℚ) (n : Nat) (t : ℚ),
      (composeFrom gap n t (allValid durs)).2.1.length = durs.length := by
  intro durs
  induction durs with
  | nil => intro n t; simp [allValid, composeFrom]
  | cons d ds ih =>
    intro n t
    simp only [allValid, List.map_cons, composeFrom, List.length_cons]
    rw [← allValid]
    rw [ih (n+1) _]

lemma composeFrom_allValid_total (gap : ℚ) :
    ∀ (durs : List ℚ) (n : Nat) (t : ℚ), 1 ≤ n →
      (composeFrom gap n t (allValid durs)).1 =
        t + durs.sum + (durs.length : ℚ) * gap := by
  intro durs
  induction durs with
  | nil => intro n t hn; simp [allValid, composeFrom]
  | cons d ds ih =>
    intro n t hn
    simp only [allValid, List.map_cons, composeFrom]
    rw [← allValid, ih (n+1) _ (by omega)]
    have hs : segmentStart gap t n = t + gap := by
      simp [segmentStart, Nat.lt_of_lt_of_le Nat.zero_lt_one hn]
    rw [hs]
    simp only [List.sum_cons, List.length_cons]
    push_cast
    ring

/-- Claim C2: when every segment is valid, the scheduled placements start at
0, consecutive placements are separated by exactly the transition gap, there
is one placement per segment, and the total timeline length equals the sum of
the durations plus (N-1) times the gap. -/
theorem assemble_all_valid_schedule
    (gap : ℚ) (hgap : 0 ≤ gap) (durs : List ℚ)
    (hpos : ∀ d ∈ durs, 0 < d) (hne : durs ≠ []) :
    (assembleCore gap (allValid durs)).2.1.length = durs.length ∧
    (∀ p, (assembleCore gap (allValid durs)).2.1.head? = some p → p.start = 0) ∧
    List.Chain' (fun p q : Placement => q.start - p.stop = gap)
      (assembleCore gap (allValid durs)).2.1 ∧
    (assembleCore gap (allValid durs)).1 =
      durs.sum + ((durs.length : ℚ) - 1) * gap := by
  rw [assembleCore_eq_composeFrom]
  refine ⟨composeFrom_allValid_length gap durs 0 0, ?_, ?_, ?_⟩
  · cases durs with
    | nil => exact absurd rfl hne
    | cons d ds =>
      intro p hp
      simp only [allValid, List.map_cons, composeFrom, List.head?_cons,
        Option.some.injEq] at hp
      subst hp
      simp [segmentStart]
  · exact (composeFrom_chain gap (allValid durs) 0 0).imp
      (fun a b h => by rw [h]; ring)
  · cases durs with
    | nil => exact absurd rfl hne
    | cons d ds =>
      simp only [allValid, List.map_cons, composeFrom]
      rw [← allValid, composeFrom_allValid_total gap ds 1 _ le_rfl]
      have hs : segmentStart gap 0 0 = 0 := by simp [segmentStart]
      rw [hs]
      simp only [List.sum_cons, List.length_cons]
      push_cast
      ring

/-- Witness for C2 at the spec round-trip scenario: durations 4.0, 6.5, 3.2
and gap 0.1. -/
theorem assemble_all_valid_schedule_witness :
    (0 : ℚ) ≤ 1/10 ∧ (∀ d ∈ ([4, 13/2, 16/5] : List ℚ), 0 < d) ∧
      ([4, 13/2, 16/5] : List ℚ) ≠ [] ∧
      ((assembleCore (1/10) (allValid [4, 13/2, 16/5])).2.1.length =
          ([4, 13/2, 16/5] : List ℚ).length ∧
        (∀ p, (assembleCore (1/10) (allValid [4, 13/2, 16/5])).2.1.head? = some p →
          p.start = 0) ∧
        List.Chain' (fun p q : Placement => q.start - p.stop = 1/10)
          (assembleCore (1/10) (allValid [4, 13/2, 16/5])).2.1 ∧
        (assembleCore (1/10) (allValid [4, 13/2, 16/5])).1 =
          ([4, 13/2, 16/5] : List ℚ).sum +
            ((([4, 13/2, 16/5] : List ℚ).length : ℚ) - 1) * (1/10)) :=
  ⟨by norm_num,
   by
    intro d hd
    rcases List.mem_cons.mp hd with rfl | hd
    · norm_num
    · rcases List.mem_cons.mp hd with rfl | hd
      · norm_num
      · rcases List.mem_cons.mp hd with rfl | hd
        · norm_num
        · simp at hd,
   by simp,
   assemble_all_valid_schedule (1/10) (by norm_num) [4, 13/2, 16/5]
    (by
      intro d hd
      rcases List.mem_cons.mp hd with rfl | hd
      · norm_num
      · rcases List.mem_cons.mp hd with rfl | hd
        · norm_num
        · rcases List.mem_cons.mp hd with rfl | hd
          · norm_num
          · simp at hd)
    (by simp)⟩

/-- Claim C4 (amended): a segment missing its visual or audio is skipped
entirely and the rest still composes (the result is empty only when every
segment is invalid); the surviving placements carry exactly the original
indices of the valid segments in order, but they ARE effectively recomputed:
the timeline is compacted, consecutive surviving segments sit exactly one
gap apart, and the first surviving placement starts at 0 when it is original
segment 0 and at the gap otherwise. -/
theorem assemble_skip_segment_compaction (gap : ℚ) (segs : List SegInput) :
    ((assembleCore gap segs).2.1 = [] ↔ ∀ seg ∈ segs, validSeg seg = false) ∧
    ((assembleCore gap segs).2.1.map Placement.idx =
      ((List.enumFrom 0 segs).filter (fun q => validSeg q.2)).map Prod.fst) ∧
    List.Chain' (fun p q : Placement => q.start = p.stop + gap)
      (assembleCore gap segs).2.1 ∧
    (∀ p, (assembleCore gap segs).2.1.head? = some p →
      p.start = if p.idx = 0 then 0 else gap) := by
  rw [assembleCore_eq_composeFrom]
  refine ⟨composeFrom_placements_nil_iff gap segs 0 0,
    composeFrom_idx_map gap segs 0 0, composeFrom_chain gap segs 0 0, ?_⟩
  cases segs with
  | nil => intro p hp; simp [composeFrom] at hp
  | cons seg rest =>
    intro p hp
    cases hv : seg.vdur with
    | none =>
      simp only [composeFrom, hv] at hp
      have hstart := composeFrom_head_start gap rest 1 0 le_rfl p hp
      have hidx : 1 ≤ p.idx :=
        composeFrom_idx_ge gap rest 1 0 p (List.mem_of_mem_head? hp)
      rw [hstart, if_neg (by omega)]
      ring
    | some d =>
      cases ha : seg.hasAudio with
      | false =>
        simp only [composeFrom, hv, ha] at hp
        have hstart := composeFrom_head_start gap rest 1 0 le_rfl p hp
        have hidx : 1 ≤ p.idx :=
          composeFrom_idx_ge gap rest 1 0 p (List.mem_of_mem_head? hp)
        rw [hstart, if_neg (by omega)]
        ring
      | true =>
        simp only [composeFrom, hv, ha, List.head?_cons, Option.some.injEq] at hp
        subst hp
        simp [segmentStart]

/-- Witness for the amended C4 at a concrete input with one invalid segment. -/
theorem assemble_skip_segment_compaction_witness :
    ((assembleCore (1/10) [⟨none, true, []⟩, ⟨some 2, true, []⟩]).2.1 = [] ↔
      ∀ seg ∈ ([⟨none, true, []⟩, ⟨some 2, true, []⟩] : List SegInput),
        validSeg seg = false) ∧
    ((assembleCore (1/10) [⟨none, true, []⟩, ⟨some 2, true, []⟩]).2.1.map Placement.idx =
      ((List.enumFrom 0 ([⟨none, true, []⟩, ⟨some 2, true, []⟩] : List SegInput)).filter
        (fun q => validSeg q.2)).map Prod.fst) ∧
    List.Chain' (fun p q : Placement => q.start = p.stop + 1/10)
      (assembleCore (1/10) [⟨none, true, []⟩, ⟨some 2, true, []⟩]).2.1 ∧
    (∀ p, (assembleCore (1/10) [⟨none, true, []⟩, ⟨some 2, true, []⟩]).2.1.head? =
        some p → p.start = if p.idx = 0 then 0 else 1/10) :=
  assemble_skip_segment_compaction (1/10) [⟨none, true, []⟩, ⟨some 2, true, []⟩]

/-- Counterexample to claim C4 as stated: with segment 0 skipped (missing
visual) and segment 1 valid with duration 2, the composition places segment 1
at [0.1, 2.1] and drops the skipped segment captions entirely; had segment 0
been valid with duration 3, segment 1 would sit at [3.1, 5.1]. The placement
of segment 1 therefore changes when segment 0 is skipped: placements ARE
effectively recomputed (compacted), contrary to the claim. -/
theorem assemble_skip_not_recomputed_cex :
    assemble_subarticle_video [⟨none, true, [⟨"tabt", 0, 1⟩]⟩, ⟨some 2, true, []⟩] =
      some ([⟨1, 1/10, 21/10⟩], [], 21/10) ∧
    assemble_subarticle_video [⟨some 3, true, []⟩, ⟨some 2, true, []⟩] =
      some ([⟨0, 0, 3⟩, ⟨1, 31/10, 51/10⟩], [], 51/10) ∧
    ¬ ((1 : ℚ)/10 = 31/10) := by
  refine ⟨?_, ?_, by norm_num⟩
  · simp only [assemble_subarticle_video, assembleCore, List.enum,
      List.enumFrom_cons, List.foldl_cons, List.foldl_nil, assemble_step,
      segmentStart, transition_gap, subtitle_clips]
    norm_num
  · simp only [assemble_subarticle_video, assembleCore, List.enum,
      List.enumFrom_cons, List.foldl_cons, List.foldl_nil, assemble_step,
      segmentStart, transition_gap, subtitle_clips]
    norm_num

/-- The rendering loop over subtitles is a filter by positive duration. -/
lemma foldl_subtitle_filter (subs : List Subtitle) :
    ∀ acc, subs.foldl
        (fun acc s => if 0 < s.stop - s.start then acc ++ [s] else acc) acc =
      acc ++ subs.filter (fun s => 0 < s.stop - s.start) := by
  induction subs with
  | nil => intro acc; simp
  | cons s rest ih =>
    intro acc
    rw [List.foldl_cons]
    by_cases h : (0 : ℚ) < s.stop - s.start
    · rw [if_pos h, ih (acc ++ [s]), List.filter_cons, if_pos (by simpa using h)]
      simp
    · rw [if_neg h, ih acc, List.filter_cons, if_neg (by simpa using h)]

/-- Claim C10: exactly the cues with positive duration stop - start become
subtitle clips in the composed video; the others are silently excluded. -/
theorem subtitle_clips_eq_filter_pos_duration (subs : List Subtitle) :
    subtitle_clips subs = subs.filter (fun s => 0 < s.stop - s.start) := by
  unfold subtitle_clips
  rw [foldl_subtitle_filter subs []]
  simp

/- ------------------------------------------------------------------
Cache/reuse decisions: `generate_subarticle_news_video`, lines 615-745.
------------------------------------------------------------------ -/

/-- Line 672: the expected on-disk path of the audio artifact of segment i. -/
def audioFilePath (i : Nat) : String :=
  "output/audio/subarticle_" ++ toString i ++ ".mp3"

/-- Line 693: the expected on-disk path of the raw video clip of segment i. -/
def clipFilePath (i : Nat) : String :=
  "output/videos/clip_" ++ toString i ++ ".mp4"

/-- Line 721: the expected on-disk path of the processed video of segment i. -/
def processedFilePath (i : Nat) : String :=
  "output/clips/processed_" ++ toString i ++ ".mp4"

/-- Abstraction of the file system consulted by the reuse checks: which paths
exist, and the duration obtained by probing a media file with
`AudioFileClip(path).duration` (lines 676-677). -/
structure FileSystem where
  pathExists : String → Bool
  probeDuration : String → ℚ

/-- Lines 671-683, one iteration of the audio loop: when `reuse_existing` is
set and the audio file exists, the artifact is reused and its duration is
re-derived by probing the file itself; otherwise the speech is regenerated
(`gen`, returning `(None, 0)` on failure as on line 234). -/
def audioStepFor (fs : FileSystem) (reuse : Bool) (gen : Nat → Option String × ℚ)
    (i : Nat) : Option String × ℚ :=
  if reuse && fs.pathExists (audioFilePath i) then
    (some (audioFilePath i), fs.probeDuration (audioFilePath i))
  else gen i

/-- Lines 669-683: the audio loop over all segment indices. -/
def audio_results (fs : FileSystem) (reuse : Bool) (gen : Nat → Option String × ℚ)
    (n : Nat) : List (Option String × ℚ) :=
  (List.range n).map (audioStepFor fs reuse gen)

/-- Lines 690-696: the reused raw clips, keyed by segment index. -/
def existing_videos (fs : FileSystem) (reuse : Bool) (n : Nat) :
    List (Nat × Option String) :=
  (List.range n).filterMap fun i =>
    if reuse && fs.pathExists (clipFilePath i) then some (i, some (clipFilePath i))
    else none

/-- Lines 690-698: the segment indices whose raw clip must be generated. -/
def videos_to_generate (fs : FileSystem) (reuse : Bool) (n : Nat) : List Nat :=
  (List.range n).filter fun i => !(reuse && fs.pathExists (clipFilePath i))

/-- Lines 701-710: the results mapping keyed by segment index: reused entries
plus one generated entry per missing index (`gen i = none` models a failed
generation); the completion order of the worker pool does not change the
per-index entries. -/
def video_results (fs : FileSystem) (reuse : Bool) (gen : Nat → Option String)
    (n : Nat) : List (Nat × Option String) :=
  existing_videos fs reuse n ++ (videos_to_generate fs reuse n).map fun i => (i, gen i)

/-- Line 713: `video_paths = [video_results.get(i) for i in range(len(subarticles))]`. -/
def video_paths (fs : FileSystem) (reuse : Bool) (gen : Nat → Option String)
    (n : Nat) : List (Option String) :=
  (List.range n).map fun i => ((video_results fs reuse gen n).lookup i).join

/-- Lines 717-729, one iteration of the processing loop: a segment with a
missing raw video or non-positive audio duration yields no processed video;
otherwise, when `reuse_existing` is set and the processed file exists it is
reused, else `slow_and_loop_video` regenerates it (`regen`, `none` on
failure). -/
def processedStepFor (fs : FileSystem) (reuse : Bool) (regen : Nat → Option String)
    (i : Nat) (videoPath : Option String) (dur : ℚ) : Option String :=
  if videoPath.isSome && decide (0 < dur) then
    if reuse && fs.pathExists (processedFilePath i) then some (processedFilePath i)
    else regen i
  else none

lemma lookup_filterMap_not_mem (P : Nat → Bool) (f : Nat → Option String) :
    ∀ (l : List Nat) (i : Nat), i ∉ l →
      ((l.filterMap fun j => if P j then some (j, f j) else none).lookup i) = none := by
  intro l
  induction l with
  | nil => intro i hi; simp
  | cons k l ih =>
    intro i hi
    rw [List.mem_cons, not_or] at hi
    by_cases hk : P k = true
    · rw [List.filterMap_cons, if_pos hk]
      simp only [Option.toList]
      rw [List.lookup_cons]
      have : (i == k) = false := beq_false_of_ne hi.1
      rw [this]
      exact ih i hi.2
    · rw [List.filterMap_cons, if_neg hk]
      exact ih i hi.2

lemma lookup_cons_ne {i k : Nat} {v : Option String} {l : List (Nat × Option String)}
    (h : i ≠ k) : ((k, v) :: l).lookup i = l.lookup i := by
  rw [List.lookup_cons, beq_false_of_ne h]

lemma lookup_append_left_none {i : Nat} {l₁ l₂ : List (Nat × Option String)}
    (h : l₁.lookup i = none) : (l₁ ++ l₂).lookup i = l₂.lookup i := by
  induction l₁ with
  | nil => simp
  | cons a l ih =>
    cases a with
    | mk k v =>
      rw [List.cons_append, List.lookup_cons]
      rw [List.lookup_cons] at h
      cases hik : (i == k) with
      | true => rw [hik] at h; simp at h
      | false =>
        rw [hik] at h
        exact ih h

lemma lookup_append_left_some {i : Nat} {v : Option String}
    {l₁ l₂ : List (Nat × Option String)} (h : l₁.lookup i = some v) :
    (l₁ ++ l₂).lookup i = some v := by
  induction l₁ with
  | nil => simp at h
  | cons a l ih =>
    cases a with
    | mk k w =>
      rw [List.cons_append, List.lookup_cons]
      rw [List.lookup_cons] at h
      cases hik : (i == k) with
      | true => rw [hik] at h; exact h
      | false => rw [hik] at h; exact ih h

/-- Per-index characterisation of the raw-video results mapping built from
reused entries and generated entries: looking up index i yields the reused
path exactly when the reuse flag is set and the clip file exists, and the
generated result otherwise. -/
lemma video_lookup_spec (fs : FileSystem) (reuse : Bool) (gen : Nat → Option String) :
    ∀ (l : List Nat), l.Nodup → ∀ i ∈ l,
      ((l.filterMap fun j =>
          if reuse && fs.pathExists (clipFilePath j) then some (j, some (clipFilePath j))
          else none) ++
        (l.filter fun j => !(reuse && fs.pathExists (clipFilePath j))).map
          fun j => (j, gen j)).lookup i =
        some (if reuse && fs.pathExists (clipFilePath i) then some (clipFilePath i)
          else gen i) := by
  intro l
  induction l with
  | nil => intro _ i hi; simp at hi
  | cons k l ih =>
    intro hn i hi
    have hkl : k ∉ l := (List.nodup_cons.mp hn).1
    have hln : l.Nodup := (List.nodup_cons.mp hn).2
    rcases List.mem_cons.mp hi with rfl | hil
    · by_cases hk : (reuse && fs.pathExists (clipFilePath i)) = true
      · rw [List.filterMap_cons, if_pos hk]
        simp only [List.cons_append, List.lookup_cons, beq_self_eq_true]
        rw [if_pos hk]
      · have hkf : (reuse && fs.pathExists (clipFilePath i)) = false :=
          Bool.eq_false_iff.mpr hk
        rw [List.filterMap_cons, if_neg hk, List.filter_cons]
        rw [if_pos (by rw [hkf]; rfl), List.map_cons]
        rw [lookup_append_left_none
          (lookup_filterMap_not_mem _ (fun j => some (clipFilePath j)) l i hkl)]
        simp only [List.lookup_cons, beq_self_eq_true]
        rw [if_neg hk]
    · have hik : i ≠ k := fun h => hkl (h ▸ hil)
      by_cases hk : (reuse && fs.pathExists (clipFilePath k)) = true
      · rw [List.filterMap_cons, if_pos hk, List.filter_cons,
          if_neg (by simp [hk]), List.cons_append, lookup_cons_ne hik]
        exact ih hln i hil
      · have hkf : (reuse && fs.pathExists (clipFilePath k)) = false :=
          Bool.eq_false_iff.mpr hk
        rw [List.filterMap_cons, if_neg hk, List.filter_cons]
        rw [if_pos (by rw [hkf]; rfl), List.map_cons]
        have hIH := ih hln i hil
        cases hA : ((l.filterMap fun j =>
            if reuse && fs.pathExists (clipFilePath j) then
              some (j, some (clipFilePath j))
            else none).lookup i) with
        | some v =>
          rw [lookup_append_left_some hA]
          rw [lookup_append_left_some hA] at hIH
          exact hIH
        | none =>
          rw [lookup_append_left_none hA, lookup_cons_ne hik]
          rw [lookup_append_left_none hA] at hIH
          exact hIH

/-- Claim C7: each per-segment artifact (audio, raw video, processed video)
is reused exactly when the reuse flag is set and a file exists at the
expected path; a missing file falls back to regeneration, never a hard
failure; and a reused audio artifact duration is re-derived by probing the
file itself rather than trusted from stored metadata. -/
theorem cache_reuse_iff_flag_and_file
    (fs : FileSystem) (reuse : Bool) (genA : Nat → Option String × ℚ)
    (genV : Nat → Option String) (regen : Nat → Option String)
    (n i : Nat) (hi : i < n) (vp : Option String) (dur : ℚ) :
    ((reuse && fs.pathExists (audioFilePath i)) = true →
      (audio_results fs reuse genA n)[i]? =
        some (some (audioFilePath i), fs.probeDuration (audioFilePath i))) ∧
    (¬ (reuse && fs.pathExists (audioFilePath i)) = true →
      (audio_results fs reuse genA n)[i]? = some (genA i)) ∧
    ((reuse && fs.pathExists (clipFilePath i)) = true →
      (video_paths fs reuse genV n)[i]? = some (some (clipFilePath i))) ∧
    (¬ (reuse && fs.pathExists (clipFilePath i)) = true →
      (video_paths fs reuse genV n)[i]? = some (genV i)) ∧
    (vp.isSome = true → 0 < dur →
      ((reuse && fs.pathExists (processedFilePath i)) = true →
        processedStepFor fs reuse regen i vp dur = some (processedFilePath i)) ∧
      (¬ (reuse && fs.pathExists (processedFilePath i)) = true →
        processedStepFor fs reuse regen i vp dur = regen i)) := by
  have hr : (List.range n)[i]? = some i := List.getElem?_range hi
  have haud : (audio_results fs reuse genA n)[i]? = some (audioStepFor fs reuse genA i) := by
    unfold audio_results
    rw [List.getElem?_map, hr, Option.map_some']
  have hvid : (video_paths fs reuse genV n)[i]? =
      some (((video_results fs reuse genV n).lookup i).join) := by
    unfold video_paths
    rw [List.getElem?_map, hr, Option.map_some']
  have hlook : (video_results fs reuse genV n).lookup i =
      some (if reuse && fs.pathExists (clipFilePath i) then some (clipFilePath i)
        else genV i) := by
    unfold video_results existing_videos videos_to_generate
    exact video_lookup_spec fs reuse genV (List.range n) (List.nodup_range _)
      i (List.mem_range.mpr hi)
  refine ⟨?_, ?_, ?_, ?_, ?_⟩
  · intro h
    rw [haud]
    unfold audioStepFor
    rw [if_pos h]
  · intro h
    rw [haud]
    unfold audioStepFor
    rw [if_neg h]
  · intro h
    rw [hvid, hlook, if_pos h]
    rfl
  · intro h
    rw [hvid, hlook, if_neg h]
    rfl
  · intro hvp hdur
    constructor
    · intro h
      unfold processedStepFor
      rw [if_pos (by simp [hvp, hdur]), if_pos h]
    · intro h
      unfold processedStepFor
      rw [if_pos (by simp [hvp, hdur]), if_neg h]

/-- Witness for C7 at a concrete file system where every path exists and
probing returns 3 seconds, with reuse enabled and index 0 of 1. -/
theorem cache_reuse_iff_flag_and_file_witness :
    (0 : Nat) < 1 ∧
    (((true && FileSystem.pathExists ⟨fun _ => true, fun _ => 3⟩ (audioFilePath 0)) = true →
      (audio_results ⟨fun _ => true, fun _ => 3⟩ true (fun _ => (none, 0)) 1)[0]? =
        some (some (audioFilePath 0),
          FileSystem.probeDuration ⟨fun _ => true, fun _ => 3⟩ (audioFilePath 0))) ∧
    (¬ (true && FileSystem.pathExists ⟨fun _ => true, fun _ => 3⟩ (audioFilePath 0)) = true →
      (audio_results ⟨fun _ => true, fun _ => 3⟩ true (fun _ => (none, 0)) 1)[0]? =
        some ((none : Option String), 0)) ∧
    ((true && FileSystem.pathExists ⟨fun _ => true, fun _ => 3⟩ (clipFilePath 0)) = true →
      (video_paths ⟨fun _ => true, fun _ => 3⟩ true (fun _ => none) 1)[0]? =
        some (some (clipFilePath 0))) ∧
    (¬ (true && FileSystem.pathExists ⟨fun _ => true, fun _ => 3⟩ (clipFilePath 0)) = true →
      (video_paths ⟨fun _ => true, fun _ => 3⟩ true (fun _ => none) 1)[0]? =
        some (none : Option String)) ∧
    ((some "v" : Option String).isSome = true → (0 : ℚ) < 1 →
      ((true && FileSystem.pathExists ⟨fun _ => true, fun _ => 3⟩ (processedFilePath 0)) = true →
        processedStepFor ⟨fun _ => true, fun _ => 3⟩ true (fun _ => none) 0 (some "v") 1 =
          some (processedFilePath 0)) ∧
      (¬ (true && FileSystem.pathExists ⟨fun _ => true, fun _ => 3⟩ (processedFilePath 0)) = true →
        processedStepFor ⟨fun _ => true, fun _ => 3⟩ true (fun _ => none) 0 (some "v") 1 =
          (fun _ => (none : Option String)) 0))) :=
  ⟨by norm_num,
    cache_reuse_iff_flag_and_file ⟨fun _ => true, fun _ => 3⟩ true
      (fun _ => (none, 0)) (fun _ => none) (fun _ => none) 1 0 (by norm_num)
      (some "v") 1⟩

/- ------------------------------------------------------------------
Final export: `assemble_subarticle_video`, lines 589-597.
------------------------------------------------------------------ -/

/-- A file-system action performed while exporting the final artifact. -/
inductive FsAction where
  | writeFile (path : String)
  | renameFile (src dst : String)
deriving DecidableEq, Repr

/-- Lines 47-51 and 590: the final output path `output/final/<name>.mp4`. -/
def final_output_path (output_name : String) : String :=
  "output/final/" ++ output_name ++ ".mp4"

/-- Lines 589-597: the file-system actions of the export step. The code
makes a single `write_videofile` call targeting the final output path
directly; it writes no temporary path and performs no rename. -/
def assemble_export_actions (output_name : String) : List FsAction :=
  [FsAction.writeFile (final_output_path output_name)]

/-- True when some action in the list writes directly to the given path. -/
def writesDirectlyTo (acts : List FsAction) (path : String) : Bool :=
  acts.any fun a =>
    match a with
    | FsAction.writeFile p => p == path
    | FsAction.renameFile _ _ => false

/-- True when some action renames one path onto another (a finalisation of a
temporary file). -/
def hasRenameAction (acts : List FsAction) : Bool :=
  acts.any fun a =>
    match a with
    | FsAction.writeFile _ => false
    | FsAction.renameFile _ _ => true

/-- Counterexample to claim C8 as stated: for the concrete output name
`video`, the export writes directly to the final output path and performs no
finalising rename, so the composition does NOT write to a temporary path
first; an export failure can leave a partial artifact at the output path. -/
theorem assemble_export_writes_directly_cex :
    writesDirectlyTo (assemble_export_actions "video") (final_output_path "video") = true ∧
    hasRenameAction (assemble_export_actions "video") = false := by
  constructor
  · simp [writesDirectlyTo, assemble_export_actions]
  · simp [hasRenameAction, assemble_export_actions]

/-- Claim C8 (amended): for every output name, the composition writes the
final video in a single write directly to the output path
`output/final/<name>.mp4`, with no temporary-path staging and no rename
finalisation. -/
theorem assemble_export_no_temp_path (output_name : String) :
    assemble_export_actions output_name =
      [FsAction.writeFile (final_output_path output_name)] ∧
    hasRenameAction (assemble_export_actions output_name) = false := by
  constructor
  · rfl
  · simp [hasRenameAction, assemble_export_actions]
